import Mathlib

/-!
Verification of the OVAL probe item cache (`src/OVAL/probes/probe/icache.c`)
against its natural-language specification.

The development is a shallow embedding of the C source:

* `setID_stamp` models the stamp string built by `probe_icache_item_setID`
  via `SEXP_string_newf_r(&uniq_id, "1%05u%u", getpid(), local_id)`.
* `atomic_fetch_add` / `mutex_pre_inc` model the two compile-time variants
  of the `next_ID` counter mint (`__sync_fetch_and_add(&next_ID, 1)` versus
  `local_id = ++next_ID` under `next_ID_mutex`).
* `QState`, `add_nolock_store`, `worker_extract`, `QStep`, `QReach` model the
  ring-buffer work queue (`__probe_icache_add_nolock`, and the extraction
  block at the top of `probe_icache_worker`).
* `CacheState`, `workerInsert`, `runInserts` model the dedup/index part of
  `probe_icache_worker` (the `pair->cobj != NULL` branch), with the external
  collaborators `SEXP_ID_v` and `SEXP_deepcmp` abstracted as an `ItemModel`.
* `probe_item_collect` and `probe_icache_nop` model the boundary helper and
  the barrier operation, with the outcomes of the pthread calls passed in
  as explicit booleans.

Machine integers are modelled as `Nat` with explicit `% 2^32` where the C
code relies on 32-bit wraparound.  Heap pointers are modelled as `Nat`
identifiers (`Ptr`); `SEXP_free` / `oscap_free` calls are recorded in
explicit event lists so that ownership claims can be stated.
-/

namespace ICache

/-- Heap pointers (SEXP_t *, condition variables, collected objects) are
modelled as natural-number identifiers. -/
abbrev Ptr := Nat

/-! ### Item identity: ID minting (`next_ID`) and stamp formatting -/

/-- `next_ID` is a `volatile uint32_t`; arithmetic on it wraps at `2^32`. -/
def UINT32_MOD : Nat := 2 ^ 32

/-- The `HAVE_ATOMIC_FUNCTIONS` variant of the mint in
`probe_icache_item_setID`: `local_id = __sync_fetch_and_add(&next_ID, 1)`.
Input is the counter value, output is the value obtained by the call and
the new counter value.  Fetch-and-add returns the value *before* the
increment. -/
def atomic_fetch_add (s : Nat) : Nat × Nat :=
  (s, (s + 1) % UINT32_MOD)

/-- The mutex-guarded variant of the mint in `probe_icache_item_setID`:
`local_id = ++next_ID` under `next_ID_mutex`.  Pre-increment returns the
value *after* the increment. -/
def mutex_pre_inc (s : Nat) : Nat × Nat :=
  ((s + 1) % UINT32_MOD, (s + 1) % UINT32_MOD)

/-- Counter value after `n` calls to the mint, starting from the initial
value `next_ID = 0`. -/
def mintState (mint : Nat → Nat × Nat) : Nat → Nat
  | 0 => 0
  | n + 1 => (mint (mintState mint n)).2

/-- The `local_id` obtained by call number `n` (0-indexed: call `n` runs
after `n` earlier calls) within one process. -/
def mintValue (mint : Nat → Nat × Nat) (n : Nat) : Nat :=
  (mint (mintState mint n)).1

theorem mintState_atomic (n : Nat) : mintState atomic_fetch_add n = n % UINT32_MOD := by
  induction n with
  | zero => rfl
  | succ n ih =>
      simp only [mintState, atomic_fetch_add, ih, UINT32_MOD]
      omega

theorem mintState_mutex (n : Nat) : mintState mutex_pre_inc n = n % UINT32_MOD := by
  induction n with
  | zero => rfl
  | succ n ih =>
      simp only [mintState, mutex_pre_inc, ih, UINT32_MOD]
      omega

theorem mintValue_atomic (n : Nat) : mintValue atomic_fetch_add n = n % UINT32_MOD := by
  simp [mintValue, atomic_fetch_add, mintState_atomic]

theorem mintValue_mutex (n : Nat) : mintValue mutex_pre_inc n = (n + 1) % UINT32_MOD := by
  simp only [mintValue, mutex_pre_inc, mintState_mutex, UINT32_MOD]
  omega

/-- `printf`-style `%u` rendering with a zero-padded minimum field width:
the decimal digits of `n`, preceded by enough `0` characters to reach
width `pad`.  `fmt_u 0 n` is plain `%u` (no padding). -/
def fmt_u (pad : Nat) (n : Nat) : String :=
  String.mk (List.replicate (pad - (Nat.repr n).length) '0') ++ Nat.repr n

/-- The stamp string built by `probe_icache_item_setID`:
`SEXP_string_newf_r(&uniq_id, "1%05u%u", getpid(), local_id)` — the
literal `1`, then the pid through `%05u`, then the minted id through
`%u`. -/
def setID_stamp (pid local_id : Nat) : String :=
  "1" ++ fmt_u 5 pid ++ fmt_u 0 local_id

/-- The stamp format as the specification words it: the prefix `"1"`,
the process identifier zero-padded to 5 digits, and the counter in
decimal with no padding. -/
def spec_stamp (pid local_id : Nat) : String :=
  "1" ++ String.mk (List.leftpad 5 '0' (Nat.repr pid).data) ++ Nat.repr local_id

/-- C4: every stamp string written by `probe_icache_item_setID` is exactly
the concatenation of the prefix `"1"`, the process identifier zero-padded
to 5 digits, and the minted counter value in decimal with no padding. -/
theorem stamp_format (pid local_id : Nat) :
    setID_stamp pid local_id = spec_stamp pid local_id := by
  apply String.ext
  simp only [setID_stamp, spec_stamp, fmt_u, List.leftpad, String.data_append,
    Nat.zero_sub, List.replicate_zero, List.nil_append]
  rfl

/-- C5 (counterexample): the two compile-time variants of counter minting
are not observationally equivalent — on the very first call of a process
(initial `next_ID = 0`), `__sync_fetch_and_add` yields `local_id = 0`
while `++next_ID` under the mutex yields `local_id = 1`. -/
theorem mint_variants_differ_at_first_call :
    mintValue atomic_fetch_add 0 = 0 ∧ mintValue mutex_pre_inc 0 = 1 ∧
      mintValue mutex_pre_inc 0 ≠ mintValue atomic_fetch_add 0 := by
  refine ⟨rfl, rfl, ?_⟩
  decide

/-- C5 (amended): the mutex-guarded variant obtains, on every call, the
value one greater (mod `2^32`) than the lock-free variant obtains on the
same call; before wraparound both counters increase strictly from call to
call. -/
theorem mint_variants_offset_by_one (n : Nat) :
    mintValue mutex_pre_inc n = (mintValue atomic_fetch_add n + 1) % UINT32_MOD ∧
      (n + 2 < UINT32_MOD →
        mintValue atomic_fetch_add n < mintValue atomic_fetch_add (n + 1) ∧
          mintValue mutex_pre_inc n < mintValue mutex_pre_inc (n + 1)) := by
  constructor
  · simp only [mintValue_mutex, mintValue_atomic, UINT32_MOD]
    omega
  · intro h
    simp only [mintValue_mutex, mintValue_atomic, UINT32_MOD] at h ⊢
    omega

theorem mint_variants_offset_by_one_witness :
    mintValue mutex_pre_inc 0 = (mintValue atomic_fetch_add 0 + 1) % UINT32_MOD ∧
      (mintValue atomic_fetch_add 0 < mintValue atomic_fetch_add 1 ∧
        mintValue mutex_pre_inc 0 < mintValue mutex_pre_inc 1) :=
  ⟨(mint_variants_offset_by_one 0).1,
   (mint_variants_offset_by_one 0).2 (by norm_num [UINT32_MOD])⟩

/-! ### Work queue (`probe_icache_t` ring buffer) -/

/-- One `probe_iqpair_t` entry: the destination collected-object pointer
`cobj` and the single union slot `p` (holding `p.item` for an Insert or
`p.cond` for a Barrier/NOP).  The field `barrier` is a ghost provenance
tag — not present in the C struct — recording whether the entry was
enqueued by `probe_icache_nop` (`true`) or `probe_icache_add` (`false`);
the C code recovers this tag from the nullity of `cobj`. -/
structure probe_iqpair where
  cobj : Option Ptr
  p : Option Ptr
  barrier : Bool
deriving DecidableEq, Repr

/-- The queue-related fields of `probe_icache_t`: the fixed-capacity
buffer `queue` (slots never yet written are `none`), the head index
`qbeg`, the tail index `qend`, the entry count `qcnt` and the capacity
`qmax` (`PROBE_IQUEUE_CAPACITY`). -/
structure QState where
  qmax : Nat
  queue : List (Option probe_iqpair)
  qbeg : Nat
  qend : Nat
  qcnt : Nat
deriving DecidableEq, Repr

/-- Queue state set up by `probe_icache_new`: all indices zero, empty
buffer of capacity `max`. -/
def initQ (max : Nat) : QState :=
  ⟨max, List.replicate max none, 0, 0, 0⟩

/-- The store branch of `__probe_icache_add_nolock` (taken when the C
check `queue_cnt <= queue_max` holds): write the entry at `queue_end`,
increment `queue_cnt`, advance `queue_end` with wraparound at
`queue_max`. -/
def add_nolock_store (s : QState) (cobj p : Option Ptr) (bar : Bool) : QState :=
  { s with queue := s.queue.set s.qend (some ⟨cobj, p, bar⟩),
           qcnt := s.qcnt + 1,
           qend := if s.qend + 1 = s.qmax then 0 else s.qend + 1 }

/-- The argument check at the top of `probe_icache_add`: fail when the
cache, the collected object, or the item is `NULL`. -/
def add_args_ok (cache cobj item : Option Ptr) : Bool :=
  !(cache == none || cobj == none || item == none)

/-- The extraction block at the top of the `probe_icache_worker` loop:
read the entry at `queue_beg`, decrement `queue_cnt`, and advance
`queue_beg` (with wraparound) — but only when `queue_end != queue_beg`.
Returns the entry read and the updated queue state. -/
def worker_extract (s : QState) : Option probe_iqpair × QState :=
  (s.queue.getD s.qbeg none,
   { s with qcnt := s.qcnt - 1,
            qbeg := if s.qend ≠ s.qbeg then
                      (if s.qbeg + 1 = s.qmax then 0 else s.qbeg + 1)
                    else s.qbeg })

/-- Transitions of the queue under its mutex:
* `add` — `probe_icache_add` past its argument check, running the store
  branch of `__probe_icache_add_nolock` with a null `cond`; enabled when
  the C guard `queue_cnt <= queue_max` holds (otherwise the producer
  waits on `queue_notfull`);
* `nop` — `probe_icache_nop` enqueueing a Barrier: null `cobj`, the
  address of a stack condition variable (never null) in the union;
* `extract` — the worker removing one entry, enabled when
  `queue_cnt > 0` (the worker was woken on `queue_notempty`). -/
inductive QStep : QState → QState → Prop
  | add {s : QState} (cache cobj item : Option Ptr) :
      add_args_ok cache cobj item = true → s.qcnt ≤ s.qmax →
      QStep s (add_nolock_store s cobj item false)
  | nop {s : QState} (cond : Ptr) :
      s.qcnt ≤ s.qmax →
      QStep s (add_nolock_store s none (some cond) true)
  | extract {s : QState} :
      1 ≤ s.qcnt →
      QStep s (worker_extract s).2

/-- Queue states reachable from the freshly initialized cache. -/
inductive QReach (max : Nat) : QState → Prop
  | init : QReach max (initQ max)
  | step {s t : QState} : QReach max s → QStep s t → QReach max t

/-- Two Inserts from the empty capacity-2 queue: the queue is full
(`qbeg = qend = 0`, `qcnt = 2 = qmax`). -/
def c2_full : QState :=
  add_nolock_store (add_nolock_store (initQ 2) (some 10) (some 11) false)
    (some 20) (some 21) false

/-- A third Insert performed on the full queue: the C guard
`queue_cnt <= queue_max` still lets it through. -/
def c2_over : QState := add_nolock_store c2_full (some 30) (some 31) false

/-- C2: the claimed invariant `count ∈ [0, capacity]` fails on the code.
With capacity 2, the state after two Inserts is reachable and full
(`qcnt = qmax = 2`), yet a third enqueue is still a legal step — the C
check is `queue_cnt <= queue_max`, not `<` — and it drives the count to
`capacity + 1` while overwriting the slot that still holds the first,
unconsumed entry. -/
theorem queue_count_exceeds_capacity :
    QReach 2 c2_over ∧
      c2_full.qcnt = c2_full.qmax ∧
      c2_over.qcnt = c2_over.qmax + 1 ∧
      c2_full.queue.getD 0 none = some ⟨some 10, some 11, false⟩ ∧
      c2_over.queue.getD 0 none = some ⟨some 30, some 31, false⟩ := by
  refine ⟨?_, by decide, by decide, by decide, by decide⟩
  have h0 : QReach 2 (initQ 2) := QReach.init
  have h1 := QReach.step h0
    (QStep.add (some 1) (some 10) (some 11) (by decide) (by decide))
  have h2 := QReach.step h1
    (QStep.add (some 1) (some 20) (some 21) (by decide) (by decide))
  exact QReach.step h2
    (QStep.add (some 1) (some 30) (some 31) (by decide) (by decide))

/-- Two Inserts from the empty capacity-2 queue, for the dequeue
experiment (same shape as `c2_full`, distinct payloads). -/
def c6_full : QState :=
  add_nolock_store (add_nolock_store (initQ 2) (some 40) (some 41) false)
    (some 50) (some 51) false

/-- C6: dequeue does not always advance the head.  In the reachable full
state (capacity 2, `qbeg = qend = 0`, `qcnt = 2`), the worker's
extraction reads the head entry and decrements the count, but the guard
`queue_end != queue_beg` is false, so `queue_beg` stays at 0 instead of
advancing to `(0 + 1) % 2 = 1`; consequently the *next* extraction reads
the very same entry again and the entry stored in slot 1 is never
returned. -/
theorem dequeue_full_queue_head_not_advanced :
    QReach 2 c6_full ∧ 1 ≤ c6_full.qcnt ∧
      c6_full.qbeg = 0 ∧ c6_full.qend = 0 ∧
      (worker_extract c6_full).2.qcnt = c6_full.qcnt - 1 ∧
      (worker_extract c6_full).2.qbeg = 0 ∧
      (c6_full.qbeg + 1) % c6_full.qmax = 1 ∧
      (worker_extract (worker_extract c6_full).2).1 = (worker_extract c6_full).1 ∧
      (worker_extract c6_full).1 = some ⟨some 40, some 41, false⟩ ∧
      some (⟨some 50, some 51, false⟩ : probe_iqpair) ∈ c6_full.queue := by
  refine ⟨?_, by decide, by decide, by decide, by decide, by decide, by decide,
    by decide, by decide, by decide⟩
  have h0 : QReach 2 (initQ 2) := QReach.init
  have h1 := QReach.step h0
    (QStep.add (some 1) (some 40) (some 41) (by decide) (by decide))
  exact QReach.step h1
    (QStep.add (some 1) (some 50) (some 51) (by decide) (by decide))

/-- C9: every entry ever stored in the work queue has a null `cobj`
exactly when it is a Barrier (and then its union slot holds a non-null
condition pointer), and a non-null `cobj` exactly when it is an Insert
(and then its union slot holds a non-null item): `probe_icache_add`
rejects null arguments before enqueueing, `probe_icache_nop` always
enqueues a null `cobj` with the address of a stack condition variable,
and these are the only producers.  Hence the worker's dispatch on
`pair->cobj == NULL` is exhaustive and unambiguous. -/
theorem queue_entry_tag_invariant {max : Nat} {s : QState} (h : QReach max s) :
    ∀ pr : probe_iqpair, some pr ∈ s.queue →
      (pr.cobj = none ↔ pr.barrier = true) ∧
        (pr.barrier = true → pr.p.isSome = true) ∧
        (pr.barrier = false → pr.cobj.isSome = true ∧ pr.p.isSome = true) := by
  induction h with
  | init =>
      intro pr hpr
      have := List.eq_of_mem_replicate hpr
      simp at this
  | step _ hs ih =>
      cases hs with
      | add cache cobj item hargs hcnt =>
          intro pr hpr
          rcases List.mem_or_eq_of_mem_set hpr with hmem | heq
          · exact ih pr hmem
          · have hcobj : cobj ≠ none := by
              intro hc; subst hc; simp [add_args_ok] at hargs
            have hitem : item ≠ none := by
              intro hc; subst hc; simp [add_args_ok] at hargs
            cases heq
            refine ⟨by simpa using hcobj, by simp, fun _ => ?_⟩
            constructor
            · simpa [Option.isSome_iff_ne_none] using hcobj
            · simpa [Option.isSome_iff_ne_none] using hitem
      | nop cond hcnt =>
          intro pr hpr
          rcases List.mem_or_eq_of_mem_set hpr with hmem | heq
          · exact ih pr hmem
          · cases heq
            simp
      | extract hcnt =>
          intro pr hpr
          exact ih pr hpr

/-- Witness for C9 at a concrete reachable state: the entry stored by a
single `probe_icache_add` on a fresh capacity-2 cache carries a non-null
destination and a non-null item. -/
theorem queue_entry_tag_invariant_witness :
    (probe_iqpair.mk (some 60) (some 61) false).cobj.isSome = true ∧
      (probe_iqpair.mk (some 60) (some 61) false).p.isSome = true := by
  have h0 : QReach 2 (initQ 2) := QReach.init
  have h := queue_entry_tag_invariant
    (QReach.step h0 (QStep.add (some 1) (some 60) (some 61) (by decide) (by decide)))
  exact (h ⟨some 60, some 61, false⟩ (by decide)).2.2 rfl

/-! ### Boundary helper `probe_item_collect` -/

/-- The fields of `struct probe_ctx` that `probe_item_collect` touches. -/
structure probe_ctx where
  filters : Option Ptr
  icache : Option Ptr
  probe_out : Option Ptr

/-- The C guard `ctx->filters != NULL && probe_item_filtered(item,
ctx->filters)`; the filter predicate `filtered` is the external
collaborator `probe_item_filtered`. -/
def filters_reject (filtered : Ptr → Ptr → Bool) (ctx : probe_ctx) (item : Ptr) : Bool :=
  match ctx.filters with
  | some f => filtered item f
  | none => false

/-- Return value of `probe_icache_add`: `-1` when the cache, collected
object or item is null; otherwise the outcome of the enqueue under the
mutex (`enqueueOk = false` models a `pthread_cond_wait` failure inside
`__probe_icache_add_nolock`, the only non-aborting failure there). -/
def probe_icache_add_result (cache cobj item : Option Ptr) (enqueueOk : Bool) : Int :=
  if !(add_args_ok cache cobj item) then -1
  else if enqueueOk then 0 else -1

/-- `probe_item_collect(ctx, item)`: returns the C return value together
with the list of items passed to `SEXP_free` during the call. -/
def probe_item_collect (filtered : Ptr → Ptr → Bool) (enqueueOk : Bool)
    (ctx : probe_ctx) (item : Ptr) : Int × List Ptr :=
  if filters_reject filtered ctx item then (1, [item])
  else if probe_icache_add_result ctx.icache ctx.probe_out (some item) enqueueOk ≠ 0 then
    (-1, [item])
  else (0, [])

/-- C8: `collect(ctx, item)` returns 1 and frees the item when the
context's filters reject it; returns -1 and frees the item when the
submit to the cache fails; and otherwise returns 0 without freeing the
item — the item is freed in exactly the two non-ok paths. -/
theorem collect_frees_exactly_on_non_ok (filtered : Ptr → Ptr → Bool)
    (enqueueOk : Bool) (ctx : probe_ctx) (item : Ptr) :
    (filters_reject filtered ctx item = true →
      probe_item_collect filtered enqueueOk ctx item = (1, [item])) ∧
    (filters_reject filtered ctx item = false →
      probe_icache_add_result ctx.icache ctx.probe_out (some item) enqueueOk ≠ 0 →
      probe_item_collect filtered enqueueOk ctx item = (-1, [item])) ∧
    (filters_reject filtered ctx item = false →
      probe_icache_add_result ctx.icache ctx.probe_out (some item) enqueueOk = 0 →
      probe_item_collect filtered enqueueOk ctx item = (0, [])) := by
  refine ⟨fun h => ?_, fun h h2 => ?_, fun h h2 => ?_⟩
  · simp [probe_item_collect, h]
  · simp [probe_item_collect, h, h2]
  · simp [probe_item_collect, h, h2]

/-- Witness for C8 on concrete inputs: a rejected item is freed with
return 1; a failing submit frees with return -1; an accepted submit
returns 0 and frees nothing. -/
theorem collect_frees_exactly_on_non_ok_witness :
    probe_item_collect (fun i _ => decide (i % 2 = 1)) true ⟨some 1, some 2, some 3⟩ 9
        = (1, [9]) ∧
      probe_item_collect (fun i _ => decide (i % 2 = 1)) false ⟨some 1, some 2, some 3⟩ 8
        = (-1, [8]) ∧
      probe_item_collect (fun i _ => decide (i % 2 = 1)) true ⟨some 1, some 2, some 3⟩ 8
        = (0, []) :=
  ⟨(collect_frees_exactly_on_non_ok (fun i _ => decide (i % 2 = 1)) true
      ⟨some 1, some 2, some 3⟩ 9).1 (by decide),
   (collect_frees_exactly_on_non_ok (fun i _ => decide (i % 2 = 1)) false
      ⟨some 1, some 2, some 3⟩ 8).2.1 (by decide) (by decide),
   (collect_frees_exactly_on_non_ok (fun i _ => decide (i % 2 = 1)) true
      ⟨some 1, some 2, some 3⟩ 8).2.2 (by decide) (by decide)⟩

/-! ### Barrier operation `probe_icache_nop` -/

/-- Outcomes of the pthread calls made by `probe_icache_nop`, in program
order: `pthread_mutex_lock`, `pthread_cond_init`, the enqueue
(`__probe_icache_add_nolock`), `pthread_cond_signal(queue_notempty)` and
`pthread_cond_wait` on the one-shot condition. -/
structure NopCalls where
  lockOk : Bool
  condInitOk : Bool
  enqueueOk : Bool
  signalOk : Bool
  waitOk : Bool

/-- `probe_icache_nop(cache)`: first component is the C return value,
second is whether the queue mutex is still held by the caller when the
function returns.  Mutex-unlock failures `abort()` the process and are
not modelled as return paths; on the `pthread_cond_wait` error path the
code returns without any unlock call, which we record as the mutex being
held. -/
def probe_icache_nop (c : NopCalls) : Int × Bool :=
  if !c.lockOk then (-1, false)
  else if !c.condInitOk then (-1, true)
  else if !c.enqueueOk then (-1, false)
  else if !c.signalOk then (-1, true)
  else if !c.waitOk then (-1, true)
  else (0, false)

/-- C10: when `pthread_cond_init` fails after the queue mutex has been
acquired, `probe_icache_nop` returns -1 with the queue mutex still held
(the pre-call lock state is not restored), unlike the enqueue-failure
path, which unlocks the mutex before returning -1. -/
theorem nop_cond_init_failure_keeps_mutex (c : NopCalls) :
    (c.lockOk = true → c.condInitOk = false → probe_icache_nop c = (-1, true)) ∧
      (c.lockOk = true → c.condInitOk = true → c.enqueueOk = false →
        probe_icache_nop c = (-1, false)) := by
  refine ⟨fun h1 h2 => ?_, fun h1 h2 h3 => ?_⟩ <;>
    simp [probe_icache_nop, h1, h2, *]

/-- Witness for C10 at concrete call outcomes. -/
theorem nop_cond_init_failure_keeps_mutex_witness :
    probe_icache_nop ⟨true, false, true, true, true⟩ = (-1, true) ∧
      probe_icache_nop ⟨true, true, false, true, true⟩ = (-1, false) :=
  ⟨(nop_cond_init_failure_keeps_mutex ⟨true, false, true, true, true⟩).1 rfl rfl,
   (nop_cond_init_failure_keeps_mutex ⟨true, true, false, true, true⟩).2 rfl rfl rfl⟩

/-! ### Dedup index and the worker's Insert handling

The `pair->cobj != NULL` branch of `probe_icache_worker`.  The external
collaborators `SEXP_ID_v` (the 64-bit content fingerprint) and
`SEXP_deepcmp` (deep structural comparison) are abstracted as an
`ItemModel` over item pointers. -/

/-- The two collaborator operations the cache applies to items. -/
structure ItemModel where
  sexpID : Ptr → Nat
  deepcmp : Ptr → Ptr → Bool

/-- Heap objects `oscap_free`d on the worker's index-insertion failure
path: the bucket's item-pointer array (`cached->item`) and the bucket
structure itself (`cached`). -/
inductive MemObj
  | itemArray
  | citemStruct
deriving DecidableEq, Repr

/-- How the worker's handling of one entry ends: continue the loop, or
`abort()` the whole process (index-insertion failure). -/
inductive WOutcome
  | wcontinue
  | wabort
deriving DecidableEq, Repr

/-- The worker-owned state: the red-black tree `cache->tree` as an
association list from fingerprint to bucket (item-pointer array of a
`probe_citem_t`), the stamp assignments made by
`probe_icache_item_setID` (pointer, minted `local_id`), the `next_ID`
counter, the `trace` of destination appends (`probe_cobj_add_item`
calls: collected-object pointer, appended item pointer), the items
passed to `SEXP_free`, and the `oscap_free` events. -/
structure CacheState where
  tree : List (Nat × List Ptr)
  stamped : List (Ptr × Nat)
  nextID : Nat
  trace : List (Ptr × Ptr)
  freed : List Ptr
  memFreed : List MemObj
deriving DecidableEq, Repr

/-- State of a freshly created cache: empty tree, counter untouched. -/
def initState : CacheState := ⟨[], [], 0, [], [], []⟩

/-- `rbt_i64_get`: first bucket stored under key `k`. -/
def lookupTree : List (Nat × List Ptr) → Nat → Option (List Ptr)
  | [], _ => none
  | (k', b) :: t, k => if k' = k then some b else lookupTree t k

/-- In-place growth of an existing bucket (`oscap_realloc` of
`cached->item` plus the append): replace the bucket stored under `k`. -/
def updateTree : List (Nat × List Ptr) → Nat → List Ptr → List (Nat × List Ptr)
  | [], _, _ => []
  | (k', b') :: t, k, b => if k' = k then (k', b) :: t else (k', b') :: updateTree t k b

/-- The worker's bucket walk: `for (i = 0; i < cached->count; ++i) if
(SEXP_deepcmp(pair->p.item, cached->item[i])) break;` — the first bucket
member deep-equal to `item`, if any. -/
def firstMatch (M : ItemModel) (item : Ptr) : List Ptr → Option Ptr
  | [] => none
  | c :: b => if M.deepcmp item c then some c else firstMatch M item b

/-- The stamp recorded for a pointer: the minted `local_id` of its first
`probe_icache_item_setID` call (the textual stamp is `setID_stamp pid`
of this value). -/
def stampOf : List (Ptr × Nat) → Ptr → Option Nat
  | [], _ => none
  | (q, n) :: t, p => if q = p then some n else stampOf t p

/-- The worker's handling of one Insert entry `(cobj, item)`, following
`probe_icache_worker` line by line:
* fingerprint `item_ID = SEXP_ID_v(item)`, then `rbt_i64_get`;
* key present, some bucket member deep-equal (cache HIT): `SEXP_free`
  the incoming item, substitute the entry's item pointer with the stored
  canonical, append the canonical to `cobj`;
* key present, no member equal (collision MISS): grow the bucket by
  appending `item`, mint an ID for `item` (`local_id = next_ID`, counter
  incremented — the `HAVE_ATOMIC_FUNCTIONS` fetch-and-add), append
  `item` to `cobj`;
* key absent (true MISS): build a fresh one-element bucket, mint an ID
  for `item`, then `rbt_i64_add`; if the insertion fails
  (`rbtAddOk = false`) the code `oscap_free`s the bucket array and the
  bucket struct — not the item — and `abort()`s; otherwise append `item`
  to `cobj`. -/
def workerInsert (M : ItemModel) (rbtAddOk : Bool) (s : CacheState)
    (cobj item : Ptr) : CacheState × WOutcome :=
  let item_ID := M.sexpID item
  match lookupTree s.tree item_ID with
  | some bucket =>
      match firstMatch M item bucket with
      | some c =>
          ({ s with freed := s.freed ++ [item],
                    trace := s.trace ++ [(cobj, c)] }, .wcontinue)
      | none =>
          ({ s with tree := updateTree s.tree item_ID (bucket ++ [item]),
                    stamped := s.stamped ++ [(item, s.nextID)],
                    nextID := s.nextID + 1,
                    trace := s.trace ++ [(cobj, item)] }, .wcontinue)
  | none =>
      if rbtAddOk then
        ({ s with tree := (item_ID, [item]) :: s.tree,
                  stamped := s.stamped ++ [(item, s.nextID)],
                  nextID := s.nextID + 1,
                  trace := s.trace ++ [(cobj, item)] }, .wcontinue)
      else
        ({ s with stamped := s.stamped ++ [(item, s.nextID)],
                  nextID := s.nextID + 1,
                  memFreed := s.memFreed ++ [.itemArray, .citemStruct] }, .wabort)

/-- One successful worker step (the runs studied by the dedup claims
assume the index insertions succeed). -/
def wstep (M : ItemModel) (s : CacheState) (e : Ptr × Ptr) : CacheState :=
  (workerInsert M true s e.1 e.2).1

/-- The worker draining a list of Insert entries in submission order. -/
def runInserts (M : ItemModel) (s : CacheState) : List (Ptr × Ptr) → CacheState
  | [] => s
  | e :: rest => runInserts M (wstep M s e) rest

/-- The canonical pointer an item would resolve to in state `s`: the
first deep-equal member of the bucket stored under its fingerprint. -/
def canonIn (M : ItemModel) (s : CacheState) (x : Ptr) : Option Ptr :=
  match lookupTree s.tree (M.sexpID x) with
  | some b => firstMatch M x b
  | none => none

/-- A tiny concrete collaborator for the index-insertion-failure claim:
constant fingerprint, pointer equality as deep comparison. -/
def M7 : ItemModel := ⟨fun _ => 7, fun p q => p == q⟩

/-- C7 (counterexample): on a true miss whose `rbt_i64_add` fails, the
incoming item is *not* freed — `oscap_free` is called on the bucket's
item array and on the bucket struct, and the process `abort()`s, but no
`SEXP_free(pair->p.item)` happens: on the concrete failing input the
`SEXP_free` list stays empty. -/
theorem index_insert_failure_item_not_freed :
    ¬ 5 ∈ (workerInsert M7 false initState 1 5).1.freed ∧
      (workerInsert M7 false initState 1 5).1.memFreed
          = [MemObj.itemArray, MemObj.citemStruct] ∧
      (workerInsert M7 false initState 1 5).2 = WOutcome.wabort := by
  decide

/-- C7 (amended): if inserting a newly created bucket into the index
fails on a true miss, the failure is fatal — the bucket's item array and
the bucket struct are freed (the incoming item itself, already stamped
at this point, is not separately freed) and the worker aborts the whole
process, so there is no retry and no further entry is consumed. -/
theorem index_insert_failure_fatal (M : ItemModel) (s : CacheState)
    (cobj item : Ptr) (h : lookupTree s.tree (M.sexpID item) = none) :
    workerInsert M false s cobj item =
      ({ s with stamped := s.stamped ++ [(item, s.nextID)],
                nextID := s.nextID + 1,
                memFreed := s.memFreed ++ [MemObj.itemArray, MemObj.citemStruct] },
       WOutcome.wabort) := by
  simp [workerInsert, h]

/-- Witness for C7's amended statement on a concrete failing input. -/
theorem index_insert_failure_fatal_witness :
    workerInsert M7 false initState 2 6 =
      (⟨[], [(6, 0)], 1, [], [], [MemObj.itemArray, MemObj.citemStruct]⟩,
       WOutcome.wabort) :=
  index_insert_failure_fatal M7 initState 2 6 rfl

/-! ### Association-list and bucket-walk lemmas -/

theorem lookupTree_mem {t : List (Nat × List Ptr)} {k : Nat} {b : List Ptr}
    (h : lookupTree t k = some b) : (k, b) ∈ t := by
  induction t with
  | nil => simp [lookupTree] at h
  | cons e t ih =>
      obtain ⟨k', b'⟩ := e
      by_cases hk : k' = k
      · subst hk
        simp [lookupTree] at h
        simp [h]
      · simp [lookupTree, hk] at h
        exact List.mem_cons_of_mem _ (ih h)

theorem lookupTree_updateTree_self {t : List (Nat × List Ptr)} {k : Nat}
    {b0 : List Ptr} (b : List Ptr) (h : lookupTree t k = some b0) :
    lookupTree (updateTree t k b) k = some b := by
  induction t with
  | nil => simp [lookupTree] at h
  | cons e t ih =>
      obtain ⟨k', b'⟩ := e
      by_cases hk : k' = k
      · subst hk
        simp [updateTree, lookupTree]
      · simp [lookupTree, hk] at h
        simp [updateTree, lookupTree, hk, ih h]

theorem lookupTree_updateTree_ne {t : List (Nat × List Ptr)} {k k2 : Nat}
    (b : List Ptr) (h : k2 ≠ k) :
    lookupTree (updateTree t k b) k2 = lookupTree t k2 := by
  induction t with
  | nil => simp [updateTree]
  | cons e t ih =>
      obtain ⟨k', b'⟩ := e
      by_cases hk : k' = k
      · subst hk
        have : k' ≠ k2 := fun hc => h (hc ▸ rfl)
        simp [updateTree, lookupTree, this]
      · by_cases hk2 : k' = k2
        · subst hk2
          simp [updateTree, lookupTree, hk]
        · simp [updateTree, lookupTree, hk, hk2, ih]

theorem mem_updateTree {t : List (Nat × List Ptr)} {k k2 : Nat}
    {b b2 : List Ptr} (h : (k2, b2) ∈ updateTree t k b) :
    (k2, b2) ∈ t ∨ b2 = b := by
  induction t with
  | nil => simp [updateTree] at h
  | cons e t ih =>
      obtain ⟨k', b'⟩ := e
      by_cases hk : k' = k
      · subst hk
        simp only [updateTree, if_pos rfl] at h
        rcases List.mem_cons.mp h with h | h
        · right; exact congrArg Prod.snd h
        · left; exact List.mem_cons_of_mem _ h
      · simp only [updateTree, if_neg hk] at h
        rcases List.mem_cons.mp h with h | h
        · left; exact List.mem_cons.mpr (Or.inl h)
        · rcases ih h with h | h
          · left; exact List.mem_cons_of_mem _ h
          · right; exact h

theorem firstMatch_some {M : ItemModel} {x : Ptr} {b : List Ptr} {c : Ptr}
    (h : firstMatch M x b = some c) : c ∈ b ∧ M.deepcmp x c = true := by
  induction b with
  | nil => simp [firstMatch] at h
  | cons q b ih =>
      by_cases hq : M.deepcmp x q = true
      · simp [firstMatch, hq] at h
        subst h
        exact ⟨List.mem_cons_self .., hq⟩
      · simp only [firstMatch, if_neg hq] at h
        obtain ⟨hm, hd⟩ := ih h
        exact ⟨List.mem_cons_of_mem _ hm, hd⟩

theorem firstMatch_none {M : ItemModel} {x : Ptr} {b : List Ptr}
    (h : firstMatch M x b = none) : ∀ q ∈ b, M.deepcmp x q = false := by
  induction b with
  | nil => simp
  | cons q b ih =>
      by_cases hq : M.deepcmp x q = true
      · simp [firstMatch, hq] at h
      · simp only [firstMatch, if_neg hq] at h
        intro p hp
        rcases List.mem_cons.mp hp with h' | h'
        · subst h'; exact Bool.not_eq_true _ ▸ hq
        · exact ih h p h'

theorem firstMatch_isSome_of_mem {M : ItemModel} {x q : Ptr} {b : List Ptr}
    (hq : q ∈ b) (h : M.deepcmp x q = true) : (firstMatch M x b).isSome = true := by
  induction b with
  | nil => simp at hq
  | cons p b ih =>
      by_cases hp : M.deepcmp x p = true
      · simp [firstMatch, hp]
      · rcases List.mem_cons.mp hq with h' | h'
        · subst h'; exact absurd h hp
        · simp only [firstMatch, if_neg hp]
          exact ih h'

theorem firstMatch_append_some {M : ItemModel} {x : Ptr} {b1 b2 : List Ptr}
    {c : Ptr} (h : firstMatch M x b1 = some c) :
    firstMatch M x (b1 ++ b2) = some c := by
  induction b1 with
  | nil => simp [firstMatch] at h
  | cons q b ih =>
      by_cases hq : M.deepcmp x q = true
      · simp [firstMatch, hq] at h ⊢
        exact h
      · simp only [firstMatch, if_neg hq, List.cons_append] at h ⊢
        exact ih h

theorem firstMatch_append_none {M : ItemModel} {x : Ptr} {b1 b2 : List Ptr}
    (h : firstMatch M x b1 = none) :
    firstMatch M x (b1 ++ b2) = firstMatch M x b2 := by
  induction b1 with
  | nil => simp
  | cons q b ih =>
      by_cases hq : M.deepcmp x q = true
      · simp [firstMatch, hq] at h
      · simp only [firstMatch, if_neg hq, List.cons_append] at h ⊢
        exact ih h

/-! ### Step lemmas for the worker -/

/-- Sanity assumptions on the collaborators, true of the real
`SEXP_deepcmp` (deep structural equality — an equivalence) and
`SEXP_ID_v` (a pure content digest, hence equal on deep-equal items).
The cache relies on them implicitly: it walks only the bucket of the
item's own fingerprint. -/
structure GoodCmp (M : ItemModel) : Prop where
  rfl_cmp : ∀ a, M.deepcmp a a = true
  symm_cmp : ∀ a b, M.deepcmp a b = M.deepcmp b a
  trans_cmp : ∀ a b c, M.deepcmp a b = true → M.deepcmp b c = true → M.deepcmp a c = true
  fid_cmp : ∀ a b, M.deepcmp a b = true → M.sexpID a = M.sexpID b

/-- Bucket members are pairwise non-equal: the worker only ever appends
an item to a bucket after its walk found no deep-equal member. -/
def TreeInv (M : ItemModel) (s : CacheState) : Prop :=
  ∀ k b, (k, b) ∈ s.tree → b.Pairwise (fun p q => M.deepcmp p q = false)

theorem treeInv_init (M : ItemModel) : TreeInv M initState := by
  intro k b hb
  simp [initState] at hb

/-- Each successful worker step appends exactly one pair to the trace:
the destination, and the canonical the item resolves to (the item itself
on a miss). -/
theorem wstep_trace (M : ItemModel) (s : CacheState) (e : Ptr × Ptr) :
    (wstep M s e).trace = s.trace ++ [(e.1, (canonIn M s e.2).getD e.2)] := by
  obtain ⟨c, x⟩ := e
  rcases hL : lookupTree s.tree (M.sexpID x) with - | b
  · simp [wstep, workerInsert, canonIn, hL]
  · rcases hF : firstMatch M x b with - | cx
    · simp [wstep, workerInsert, canonIn, hL, hF]
    · simp [wstep, workerInsert, canonIn, hL, hF]

/-- After its own step, an item resolves (and keeps resolving) to the
canonical that was appended for it. -/
theorem canonIn_wstep_self (M : ItemModel) (H : GoodCmp M) (s : CacheState)
    (e : Ptr × Ptr) :
    canonIn M (wstep M s e) e.2 = some ((canonIn M s e.2).getD e.2) := by
  obtain ⟨c, x⟩ := e
  rcases hL : lookupTree s.tree (M.sexpID x) with - | b
  · simp only [wstep, workerInsert, hL, if_pos rfl]
    simp [canonIn, lookupTree, firstMatch, H.rfl_cmp, hL]
  · rcases hF : firstMatch M x b with - | cx
    · simp only [wstep, workerInsert, hL, hF]
      simp only [canonIn, hL, hF, Option.getD_none]
      rw [lookupTree_updateTree_self (b ++ [x]) hL]
      show firstMatch M x (b ++ [x]) = some x
      rw [firstMatch_append_none hF]
      simp [firstMatch, H.rfl_cmp]
    · simp only [wstep, workerInsert, hL, hF]
      simp [canonIn, hL, hF]

/-- A resolved canonical persists across any later worker step: buckets
only grow at the end, new keys are fresh, and hits change nothing. -/
theorem canonIn_wstep_persist (M : ItemModel) (s : CacheState) (e : Ptr × Ptr)
    {y cy : Ptr} (h : canonIn M s y = some cy) :
    canonIn M (wstep M s e) y = some cy := by
  obtain ⟨c, x⟩ := e
  rcases hLy : lookupTree s.tree (M.sexpID y) with - | by'
  · simp [canonIn, hLy] at h
  · simp only [canonIn, hLy] at h
    rcases hL : lookupTree s.tree (M.sexpID x) with - | b
    · -- true miss on x: its key is fresh, so y's key differs
      have hne : M.sexpID y ≠ M.sexpID x := by
        intro hc
        rw [hc, hL] at hLy
        exact Option.noConfusion hLy
      simp only [wstep, workerInsert, hL, if_pos rfl]
      simp [canonIn, lookupTree, hne.symm, hLy, h]
    · rcases hF : firstMatch M x b with - | cx
      · -- collision miss on x: x's bucket grows at the end
        simp only [wstep, workerInsert, hL, hF]
        by_cases hk : M.sexpID y = M.sexpID x
        · rw [hk] at hLy
          have hb : by' = b := by
            rw [hLy] at hL
            exact (Option.some.injEq .. ▸ hL).symm ▸ rfl
          subst hb
          simp only [canonIn, hk]
          rw [lookupTree_updateTree_self (by' ++ [x]) hL]
          exact firstMatch_append_some h
        · simp only [canonIn]
          rw [lookupTree_updateTree_ne _ hk, hLy]
          exact h
      · -- hit on x: state tree unchanged
        simp only [wstep, workerInsert, hL, hF]
        simp [canonIn, hLy, h]

/-- Worker steps preserve the pairwise-distinct-bucket invariant. -/
theorem treeInv_wstep (M : ItemModel) (H : GoodCmp M) (s : CacheState)
    (e : Ptr × Ptr) (hInv : TreeInv M s) : TreeInv M (wstep M s e) := by
  obtain ⟨c, x⟩ := e
  rcases hL : lookupTree s.tree (M.sexpID x) with - | b
  · simp only [wstep, workerInsert, hL, if_pos rfl]
    intro k b2 hb2
    rcases List.mem_cons.mp hb2 with h' | h'
    · have : b2 = [x] := congrArg Prod.snd h'
      subst this
      simp
    · exact hInv k b2 h'
  · rcases hF : firstMatch M x b with - | cx
    · simp only [wstep, workerInsert, hL, hF]
      intro k b2 hb2
      rcases mem_updateTree hb2 with h' | h'
      · exact hInv k b2 h'
      · subst h'
        rw [List.pairwise_append]
        refine ⟨hInv _ b (lookupTree_mem hL), by simp, ?_⟩
        intro p hp q hq
        rcases List.mem_singleton.mp hq with rfl
        rw [H.symm_cmp]
        exact firstMatch_none hF p hp
    · simp only [wstep, workerInsert, hL, hF]
      exact hInv

/-- In a state with pairwise-distinct buckets, deep-equal items resolve
to the same canonical. -/
theorem canonIn_unique (M : ItemModel) (H : GoodCmp M) (s : CacheState)
    (hInv : TreeInv M s) {x y cx cy : Ptr}
    (hx : canonIn M s x = some cx) (hy : canonIn M s y = some cy)
    (hxy : M.deepcmp x y = true) : cx = cy := by
  have hfid : M.sexpID x = M.sexpID y := H.fid_cmp x y hxy
  rcases hL : lookupTree s.tree (M.sexpID x) with - | b
  · simp [canonIn, hL] at hx
  · simp only [canonIn, hL] at hx
    rw [canonIn, ← hfid, hL] at hy
    obtain ⟨hcxm, hcxd⟩ := firstMatch_some hx
    obtain ⟨hcym, hcyd⟩ := firstMatch_some hy
    -- x ~ cx, y ~ cy, x ~ y  ⇒  cx ~ cy; pairwise-distinct bucket forces cx = cy
    have hyx : M.deepcmp y x = true := (H.symm_cmp x y) ▸ hxy
    have hycx : M.deepcmp y cx = true := H.trans_cmp y x cx hyx hcxd
    have hcxcy : M.deepcmp cx cy = true :=
      H.trans_cmp cx y cy ((H.symm_cmp y cx) ▸ hycx) hcyd
    by_contra hne
    have hpair := hInv _ b (lookupTree_mem hL)
    have hsym : Symmetric (fun p q => M.deepcmp p q = false) := by
      intro p q hpq
      rw [H.symm_cmp]
      exact hpq
    have := hpair.forall hsym hcxm hcym hne
    rw [this] at hcxcy
    exact Bool.noConfusion hcxcy

/-! ### Run-level lemmas -/

theorem runInserts_append (M : ItemModel) (s : CacheState)
    (L1 L2 : List (Ptr × Ptr)) :
    runInserts M s (L1 ++ L2) = runInserts M (runInserts M s L1) L2 := by
  induction L1 generalizing s with
  | nil => rfl
  | cons e L1 ih => simp [runInserts, ih]

theorem run_trace_extends (M : ItemModel) (s : CacheState)
    (L : List (Ptr × Ptr)) :
    ∃ t2, (runInserts M s L).trace = s.trace ++ t2 := by
  induction L generalizing s with
  | nil => exact ⟨[], by simp [runInserts]⟩
  | cons e L ih =>
      obtain ⟨t2, ht⟩ := ih (wstep M s e)
      refine ⟨[(e.1, (canonIn M s e.2).getD e.2)] ++ t2, ?_⟩
      rw [runInserts, ht, wstep_trace, List.append_assoc]

theorem run_trace_length (M : ItemModel) (s : CacheState)
    (L : List (Ptr × Ptr)) :
    (runInserts M s L).trace.length = s.trace.length + L.length := by
  induction L generalizing s with
  | nil => simp [runInserts]
  | cons e L ih =>
      rw [runInserts, ih, wstep_trace]
      simp
      omega

theorem canonIn_run_persist (M : ItemModel) (s : CacheState)
    (L : List (Ptr × Ptr)) {y cy : Ptr} (h : canonIn M s y = some cy) :
    canonIn M (runInserts M s L) y = some cy := by
  induction L generalizing s with
  | nil => exact h
  | cons e L ih => exact ih (wstep M s e) (canonIn_wstep_persist M s e h)

theorem treeInv_run (M : ItemModel) (H : GoodCmp M) (s : CacheState)
    (L : List (Ptr × Ptr)) (hInv : TreeInv M s) :
    TreeInv M (runInserts M s L) := by
  induction L generalizing s with
  | nil => exact hInv
  | cons e L ih => exact ih (wstep M s e) (treeInv_wstep M H s e hInv)

/-- After the worker drains `L` from state `s`, the `i`-th submitted item
resolves to exactly the canonical recorded at trace position
`s.trace.length + i`. -/
theorem run_canon_pointwise (M : ItemModel) (H : GoodCmp M) (s : CacheState)
    (L : List (Ptr × Ptr)) (i : Nat) (hi : i < L.length) :
    canonIn M (runInserts M s L) (L.getD i (0, 0)).2
      = some (((runInserts M s L).trace.getD (s.trace.length + i) (0, 0)).2) := by
  induction L generalizing s i with
  | nil => simp at hi
  | cons e L ih =>
      cases i with
      | zero =>
          have hself := canonIn_wstep_self M H s e
          have hpersist := canonIn_run_persist M (wstep M s e) L hself
          obtain ⟨t2, ht2⟩ := run_trace_extends M (wstep M s e) L
          have hrun : runInserts M s (e :: L) = runInserts M (wstep M s e) L := rfl
          have hget0 : (e :: L).getD 0 (0, 0) = e := rfl
          rw [hrun, hget0, hpersist, ht2, wstep_trace, List.append_assoc]
          rw [List.getD_append_right _ _ _ _ (by omega)]
          simp
      | succ i' =>
          have hi' : i' < L.length := by
            simp only [List.length_cons] at hi
            omega
          have hIH := ih (wstep M s e) i' hi'
          have hlen : (wstep M s e).trace.length = s.trace.length + 1 := by
            rw [wstep_trace]
            simp
          have hgetL : (e :: L).getD (i' + 1) (0, 0) = L.getD i' (0, 0) := rfl
          have hrun : runInserts M s (e :: L) = runInserts M (wstep M s e) L := rfl
          have hidx : s.trace.length + (i' + 1) = (wstep M s e).trace.length + i' := by
            rw [hlen]
            omega
          rw [hrun, hgetL, hidx]
          exact hIH

/-- C1: (i) for every Insert whose item has the fingerprint of, and is
deep-equal to, an item already stored in that fingerprint's bucket, the
worker frees the incoming item, substitutes the stored canonical for it,
and appends that canonical to the destination, with the whole stamp
store (hence the canonical's stamp) unchanged; (ii) consequently, over
any drained run, every pair of deep-equal submitted items is represented
in the destination trace by the same (pointer-identical) canonical. -/
theorem hit_canonicalization (M : ItemModel) (H : GoodCmp M) :
    (∀ (s : CacheState) (cobj item : Ptr) (b : List Ptr),
      lookupTree s.tree (M.sexpID item) = some b →
      (∃ q ∈ b, M.deepcmp item q = true) →
      ∃ c, firstMatch M item b = some c ∧ c ∈ b ∧ M.deepcmp item c = true ∧
        workerInsert M true s cobj item =
          ({ s with freed := s.freed ++ [item],
                    trace := s.trace ++ [(cobj, c)] }, WOutcome.wcontinue)) ∧
    (∀ (L : List (Ptr × Ptr)) (i j : Nat), i < L.length → j < L.length →
      M.deepcmp (L.getD i (0, 0)).2 (L.getD j (0, 0)).2 = true →
      ((runInserts M initState L).trace.getD i (0, 0)).2
        = ((runInserts M initState L).trace.getD j (0, 0)).2) := by
  constructor
  · intro s cobj item b hL hex
    obtain ⟨q, hq, hcmp⟩ := hex
    obtain ⟨c, hF⟩ := Option.isSome_iff_exists.mp (firstMatch_isSome_of_mem hq hcmp)
    obtain ⟨hcm, hcd⟩ := firstMatch_some hF
    exact ⟨c, hF, hcm, hcd, by simp [workerInsert, hL, hF]⟩
  · intro L i j hi hj hcmp
    have h0 : (initState.trace.length : Nat) = 0 := rfl
    have hci := run_canon_pointwise M H initState L i hi
    have hcj := run_canon_pointwise M H initState L j hj
    rw [h0, Nat.zero_add] at hci hcj
    have hInv := treeInv_run M H initState L (treeInv_init M)
    have := canonIn_unique M H (runInserts M initState L) hInv hci hcj hcmp
    exact Option.some.injEq .. ▸ this

/-- Concrete collaborator for the C1 witness: constant fingerprint,
deep comparison identifying pointers with equal tens digit. -/
def M1 : ItemModel := ⟨fun _ => 0, fun p q => decide (p / 10 = q / 10)⟩

/-- Witness for C1 at a concrete run: items 10 and 11 are deep-equal, so
both trace entries reference the same canonical pointer. -/
theorem hit_canonicalization_witness :
    ((runInserts M1 initState [(1, 10), (2, 11)]).trace.getD 0 (0, 0)).2
      = ((runInserts M1 initState [(1, 10), (2, 11)]).trace.getD 1 (0, 0)).2 := by
  have H : GoodCmp M1 := by
    refine ⟨fun a => by simp [M1], fun a b => ?_, fun a b c h1 h2 => ?_, fun a b h => rfl⟩
    · rw [M1]
      simp only
      rw [decide_eq_decide]
      exact eq_comm
    · simp only [M1, decide_eq_true_eq] at h1 h2 ⊢
      exact h1.trans h2
  exact (hit_canonicalization M1 H).2 [(1, 10), (2, 11)] 0 1 (by decide) (by decide)
    (by decide)

/-! ### Provenance invariants and stamp bookkeeping -/

theorem firstMatch_eq_none_of {M : ItemModel} {x : Ptr} {b : List Ptr}
    (h : ∀ q ∈ b, M.deepcmp x q = false) : firstMatch M x b = none := by
  induction b with
  | nil => rfl
  | cons q b ih =>
      have hq := h q (List.mem_cons_self ..)
      simp only [firstMatch, hq, Bool.false_eq_true, if_false]
      exact ih fun p hp => h p (List.mem_cons_of_mem _ hp)

/-- Every bucket member comes from an already-processed item. -/
def BucketsFrom (s : CacheState) (seen : List Ptr) : Prop :=
  ∀ k b, (k, b) ∈ s.tree → ∀ p ∈ b, p ∈ seen

/-- Every stamped pointer comes from an already-processed item. -/
def StampedFrom (s : CacheState) (seen : List Ptr) : Prop :=
  ∀ pn ∈ s.stamped, pn.1 ∈ seen

theorem stampOf_append_left {t1 t2 : List (Ptr × Nat)} {p : Ptr} {n : Nat}
    (h : stampOf t1 p = some n) : stampOf (t1 ++ t2) p = some n := by
  induction t1 with
  | nil => simp [stampOf] at h
  | cons e t ih =>
      obtain ⟨q, m⟩ := e
      by_cases hq : q = p
      · subst hq
        simp [stampOf] at h ⊢
        exact h
      · simp only [stampOf, if_neg hq, List.cons_append] at h ⊢
        exact ih h

theorem stampOf_append_of_none {t1 t2 : List (Ptr × Nat)} {p : Ptr}
    (h : stampOf t1 p = none) : stampOf (t1 ++ t2) p = stampOf t2 p := by
  induction t1 with
  | nil => rfl
  | cons e t ih =>
      obtain ⟨q, m⟩ := e
      by_cases hq : q = p
      · simp [stampOf, hq] at h
      · simp only [stampOf, if_neg hq, List.cons_append] at h ⊢
        exact ih h

theorem stampOf_none_of_from {st : List (Ptr × Nat)} {seen : List Ptr} {p : Ptr}
    (h : ∀ pn ∈ st, pn.1 ∈ seen) (hp : ¬ p ∈ seen) : stampOf st p = none := by
  induction st with
  | nil => rfl
  | cons e t ih =>
      obtain ⟨q, m⟩ := e
      by_cases hq : q = p
      · subst hq
        exact absurd (h (q, m) (List.mem_cons_self ..)) hp
      · simp only [stampOf, if_neg hq]
        exact ih fun pn hpn => h pn (List.mem_cons_of_mem _ hpn)

theorem wstep_nextID_le (M : ItemModel) (s : CacheState) (e : Ptr × Ptr) :
    s.nextID ≤ (wstep M s e).nextID := by
  obtain ⟨c, x⟩ := e
  rcases hL : lookupTree s.tree (M.sexpID x) with - | b
  · simp [wstep, workerInsert, hL]
  · rcases hF : firstMatch M x b with - | cx <;>
      simp [wstep, workerInsert, hL, hF]

theorem run_nextID_le (M : ItemModel) (s : CacheState) (L : List (Ptr × Ptr)) :
    s.nextID ≤ (runInserts M s L).nextID := by
  induction L generalizing s with
  | nil => exact Nat.le_refl _
  | cons e L ih => exact Nat.le_trans (wstep_nextID_le M s e) (ih (wstep M s e))

theorem run_stamped_extends (M : ItemModel) (s : CacheState)
    (L : List (Ptr × Ptr)) :
    ∃ t, (runInserts M s L).stamped = s.stamped ++ t := by
  induction L generalizing s with
  | nil => exact ⟨[], by simp [runInserts]⟩
  | cons e L ih =>
      obtain ⟨t, ht⟩ := ih (wstep M s e)
      obtain ⟨c, x⟩ := e
      rcases hL : lookupTree s.tree (M.sexpID x) with - | b
      · exact ⟨[(x, s.nextID)] ++ t, by
          rw [runInserts, ht]
          simp [wstep, workerInsert, hL]⟩
      · rcases hF : firstMatch M x b with - | cx
        · exact ⟨[(x, s.nextID)] ++ t, by
            rw [runInserts, ht]
            simp [wstep, workerInsert, hL, hF]⟩
        · exact ⟨t, by
            rw [runInserts, ht]
            simp [wstep, workerInsert, hL, hF]⟩

theorem bucketsFrom_wstep (M : ItemModel) (s : CacheState) (e : Ptr × Ptr)
    {seen : List Ptr} (hB : BucketsFrom s seen) :
    BucketsFrom (wstep M s e) (seen ++ [e.2]) := by
  obtain ⟨c, x⟩ := e
  have hext : ∀ p, p ∈ seen → p ∈ seen ++ [x] := fun p hp =>
    List.mem_append.mpr (Or.inl hp)
  rcases hL : lookupTree s.tree (M.sexpID x) with - | b
  · simp only [wstep, workerInsert, hL, if_pos rfl]
    intro k b2 hb2 p hp
    rcases List.mem_cons.mp hb2 with h' | h'
    · have : b2 = [x] := congrArg Prod.snd h'
      subst this
      rcases List.mem_singleton.mp hp with rfl
      exact List.mem_append.mpr (Or.inr (List.mem_singleton.mpr rfl))
    · exact hext p (hB k b2 h' p hp)
  · rcases hF : firstMatch M x b with - | cx
    · simp only [wstep, workerInsert, hL, hF]
      intro k b2 hb2 p hp
      rcases mem_updateTree hb2 with h' | h'
      · exact hext p (hB k b2 h' p hp)
      · subst h'
        rcases List.mem_append.mp hp with h' | h'
        · exact hext p (hB _ b (lookupTree_mem hL) p h')
        · rcases List.mem_singleton.mp h' with rfl
          exact List.mem_append.mpr (Or.inr (List.mem_singleton.mpr rfl))
    · simp only [wstep, workerInsert, hL, hF]
      intro k b2 hb2 p hp
      exact hext p (hB k b2 hb2 p hp)

theorem bucketsFrom_run (M : ItemModel) (s : CacheState) (L : List (Ptr × Ptr))
    {seen : List Ptr} (hB : BucketsFrom s seen) :
    BucketsFrom (runInserts M s L) (seen ++ L.map Prod.snd) := by
  induction L generalizing s seen with
  | nil => simpa [runInserts] using hB
  | cons e L ih =>
      have h1 := bucketsFrom_wstep M s e hB
      have h2 := ih (wstep M s e) h1
      rw [List.append_assoc] at h2
      simpa [runInserts] using h2

theorem stampedFrom_wstep (M : ItemModel) (s : CacheState) (e : Ptr × Ptr)
    {seen : List Ptr} (hS : StampedFrom s seen) :
    StampedFrom (wstep M s e) (seen ++ [e.2]) := by
  obtain ⟨c, x⟩ := e
  have hext : ∀ pn : Ptr × Nat, pn ∈ s.stamped → pn.1 ∈ seen ++ [x] := fun pn hpn =>
    List.mem_append.mpr (Or.inl (hS pn hpn))
  rcases hL : lookupTree s.tree (M.sexpID x) with - | b
  · simp only [wstep, workerInsert, hL, if_pos rfl]
    intro pn hpn
    rcases List.mem_append.mp hpn with h' | h'
    · exact hext pn h'
    · rcases List.mem_singleton.mp h' with rfl
      exact List.mem_append.mpr (Or.inr (List.mem_singleton.mpr rfl))
  · rcases hF : firstMatch M x b with - | cx
    · simp only [wstep, workerInsert, hL, hF]
      intro pn hpn
      rcases List.mem_append.mp hpn with h' | h'
      · exact hext pn h'
      · rcases List.mem_singleton.mp h' with rfl
        exact List.mem_append.mpr (Or.inr (List.mem_singleton.mpr rfl))
    · simp only [wstep, workerInsert, hL, hF]
      exact hext

theorem stampedFrom_run (M : ItemModel) (s : CacheState) (L : List (Ptr × Ptr))
    {seen : List Ptr} (hS : StampedFrom s seen) :
    StampedFrom (runInserts M s L) (seen ++ L.map Prod.snd) := by
  induction L generalizing s seen with
  | nil => simpa [runInserts] using hS
  | cons e L ih =>
      have h1 := stampedFrom_wstep M s e hS
      have h2 := ih (wstep M s e) h1
      rw [List.append_assoc] at h2
      simpa [runInserts] using h2

/-- A fresh item — one deep-equal to nothing processed so far — is a
miss (true or collision): the worker stamps it with the current counter
value, increments the counter, and appends the item itself to the
destination. -/
theorem wstep_fresh (M : ItemModel) (s : CacheState) (e : Ptr × Ptr)
    {seen : List Ptr} (hB : BucketsFrom s seen)
    (hfresh : ∀ p ∈ seen, M.deepcmp e.2 p = false) :
    (wstep M s e).stamped = s.stamped ++ [(e.2, s.nextID)] ∧
      (wstep M s e).nextID = s.nextID + 1 ∧
      (wstep M s e).trace = s.trace ++ [e] ∧
      canonIn M s e.2 = none := by
  obtain ⟨c, x⟩ := e
  rcases hL : lookupTree s.tree (M.sexpID x) with - | b
  · refine ⟨?_, ?_, ?_, ?_⟩ <;> simp [wstep, workerInsert, canonIn, hL]
  · have hF : firstMatch M x b = none :=
      firstMatch_eq_none_of fun q hq => hfresh q (hB _ b (lookupTree_mem hL) q hq)
    refine ⟨?_, ?_, ?_, ?_⟩ <;> simp [wstep, workerInsert, canonIn, hL, hF]

/-- Split a run at position `j`: drain the first `j` entries, process
entry `j`, then drain the rest. -/
theorem run_decomp (M : ItemModel) (s : CacheState) (L : List (Ptr × Ptr))
    (j : Nat) (hj : j < L.length) :
    runInserts M s L
      = runInserts M (wstep M (runInserts M s (L.take j)) (L.getD j (0, 0)))
          (L.drop (j + 1)) := by
  conv_lhs => rw [← List.take_append_drop j L]
  rw [runInserts_append, List.drop_eq_getElem_cons hj, List.getD_eq_getElem L (0, 0) hj]
  rfl

theorem mem_take_map_snd {L : List (Ptr × Ptr)} {i : Nat} {p : Ptr}
    (h : p ∈ (L.take i).map Prod.snd) :
    ∃ k, k < i ∧ k < L.length ∧ (L.getD k (0, 0)).2 = p := by
  obtain ⟨e, he, hep⟩ := List.mem_map.mp h
  obtain ⟨n, hn⟩ := List.mem_iff_get.mp he
  have hlen : (L.take i).length = min i L.length := List.length_take ..
  have hni : (n : Nat) < i := by
    have := n.isLt
    omega
  have hnL : (n : Nat) < L.length := by
    have := n.isLt
    omega
  refine ⟨n, hni, hnL, ?_⟩
  rw [List.getD_eq_getElem L (0, 0) hnL]
  have hg : (L.take i).get n = L[(n : Nat)] := by
    rw [List.get_eq_getElem]
    exact List.getElem_take L
  rw [← hep, ← hn, hg]

theorem getD_take {L : List (Ptr × Ptr)} {i j : Nat} (hij : i < j)
    (hi : i < L.length) : (L.take j).getD i (0, 0) = L.getD i (0, 0) := by
  have hlen : i < (L.take j).length := by
    rw [List.length_take]
    omega
  rw [List.getD_eq_getElem _ (0, 0) hlen, List.getD_eq_getElem L (0, 0) hi]
  exact List.getElem_take L

/-- Concrete collaborator for the C3 counterexample: constant
fingerprint, deep comparison identifying pointers with equal tens
digit (pointers 10 and 11 are deep-equal, 20 is not equal to either). -/
def M3 : ItemModel := ⟨fun _ => 7, fun p q => decide (p / 10 = q / 10)⟩

/-- C3 (counterexample): it is not true that for *every* two submitted
items sharing a fingerprint but not content-equal the later one is
treated as a collision-miss.  Submit 10, 20, 11 (all fingerprint 7;
20 is deep-equal to neither other item; 11 is deep-equal to 10).  The
pair (20, 11) shares a fingerprint and is not content-equal, yet the
later item 11 is a cache *hit* on 10: it is freed, never stamped, the
bucket stays `[10, 20]`, and the canonical 10 — not 11 — is appended to
the destination. -/
theorem collision_pair_not_always_miss :
    M3.sexpID 20 = M3.sexpID 11 ∧
      M3.deepcmp 20 11 = false ∧ M3.deepcmp 11 20 = false ∧
      (runInserts M3 initState [(1, 10), (1, 20), (1, 11)]).freed = [11] ∧
      stampOf (runInserts M3 initState [(1, 10), (1, 20), (1, 11)]).stamped 11 = none ∧
      lookupTree (runInserts M3 initState [(1, 10), (1, 20), (1, 11)]).tree 7
        = some [10, 20] ∧
      (runInserts M3 initState [(1, 10), (1, 20), (1, 11)]).trace
        = [(1, 10), (1, 20), (1, 10)] := by
  decide

/-- C3 (amended): for two submitted items that share a fingerprint but
are not content-equal, *each content-equal to no earlier-submitted
item*, the worker treats the later one as a collision-miss — it extends
that fingerprint's bucket by appending the item, stamps it with the
freshly minted counter value, and appends the item itself to the
destination — the two items end up with distinct stamps, and any later
item deep-equal to either of them resolves to that item as its
canonical (hence receives its existing stamp). -/
theorem collision_miss_distinct_stamps (M : ItemModel) (H : GoodCmp M)
    (L : List (Ptr × Ptr)) (i j : Nat) (hij : i < j) (hjL : j < L.length)
    (hfid : M.sexpID (L.getD i (0, 0)).2 = M.sexpID (L.getD j (0, 0)).2)
    (hfreshi : ∀ k, k < i → M.deepcmp (L.getD i (0, 0)).2 (L.getD k (0, 0)).2 = false)
    (hfreshj : ∀ k, k < j → M.deepcmp (L.getD j (0, 0)).2 (L.getD k (0, 0)).2 = false) :
    (∃ b, lookupTree (runInserts M initState (L.take j)).tree
            (M.sexpID (L.getD j (0, 0)).2) = some b ∧
      firstMatch M (L.getD j (0, 0)).2 b = none ∧
      wstep M (runInserts M initState (L.take j)) (L.getD j (0, 0))
        = ⟨updateTree (runInserts M initState (L.take j)).tree
              (M.sexpID (L.getD j (0, 0)).2) (b ++ [(L.getD j (0, 0)).2]),
           (runInserts M initState (L.take j)).stamped
              ++ [((L.getD j (0, 0)).2, (runInserts M initState (L.take j)).nextID)],
           (runInserts M initState (L.take j)).nextID + 1,
           (runInserts M initState (L.take j)).trace ++ [L.getD j (0, 0)],
           (runInserts M initState (L.take j)).freed,
           (runInserts M initState (L.take j)).memFreed⟩) ∧
    (stampOf (runInserts M initState L).stamped (L.getD i (0, 0)).2
        = some (runInserts M initState (L.take i)).nextID ∧
      stampOf (runInserts M initState L).stamped (L.getD j (0, 0)).2
        = some (runInserts M initState (L.take j)).nextID ∧
      (runInserts M initState (L.take i)).nextID
        ≠ (runInserts M initState (L.take j)).nextID) ∧
    (∀ l, j < l → l < L.length →
      M.deepcmp (L.getD l (0, 0)).2 (L.getD j (0, 0)).2 = true →
      ((runInserts M initState L).trace.getD l (0, 0)).2 = (L.getD j (0, 0)).2) ∧
    (∀ l, i < l → l < L.length →
      M.deepcmp (L.getD l (0, 0)).2 (L.getD i (0, 0)).2 = true →
      ((runInserts M initState L).trace.getD l (0, 0)).2 = (L.getD i (0, 0)).2) := by
  have hiL : i < L.length := Nat.lt_trans hij hjL
  have hB0 : BucketsFrom initState [] := by
    intro k b hb
    simp [initState] at hb
  have hS0 : StampedFrom initState [] := by
    intro pn hpn
    simp [initState] at hpn
  -- seen-invariants at the two cut states
  have hBi : BucketsFrom (runInserts M initState (L.take i)) ((L.take i).map Prod.snd) := by
    simpa using bucketsFrom_run M initState (L.take i) hB0
  have hSi : StampedFrom (runInserts M initState (L.take i)) ((L.take i).map Prod.snd) := by
    simpa using stampedFrom_run M initState (L.take i) hS0
  have hBj : BucketsFrom (runInserts M initState (L.take j)) ((L.take j).map Prod.snd) := by
    simpa using bucketsFrom_run M initState (L.take j) hB0
  have hSj : StampedFrom (runInserts M initState (L.take j)) ((L.take j).map Prod.snd) := by
    simpa using stampedFrom_run M initState (L.take j) hS0
  -- freshness restated over the seen lists
  have hfreshSi : ∀ p ∈ (L.take i).map Prod.snd,
      M.deepcmp (L.getD i (0, 0)).2 p = false := by
    intro p hp
    obtain ⟨k, hki, hkL, hkp⟩ := mem_take_map_snd hp
    rw [← hkp]
    exact hfreshi k hki
  have hfreshSj : ∀ p ∈ (L.take j).map Prod.snd,
      M.deepcmp (L.getD j (0, 0)).2 p = false := by
    intro p hp
    obtain ⟨k, hki, hkL, hkp⟩ := mem_take_map_snd hp
    rw [← hkp]
    exact hfreshj k hki
  have hnotini : ¬ (L.getD i (0, 0)).2 ∈ (L.take i).map Prod.snd := by
    intro hmem
    have := hfreshSi _ hmem
    rw [H.rfl_cmp] at this
    exact Bool.noConfusion this
  have hnotinj : ¬ (L.getD j (0, 0)).2 ∈ (L.take j).map Prod.snd := by
    intro hmem
    have := hfreshSj _ hmem
    rw [H.rfl_cmp] at this
    exact Bool.noConfusion this
  -- the step on entry i is a miss that stamps the item
  have hstepi := wstep_fresh M (runInserts M initState (L.take i)) (L.getD i (0, 0))
    hBi hfreshSi
  have hstampi0 : stampOf (runInserts M initState (L.take i)).stamped
      (L.getD i (0, 0)).2 = none := stampOf_none_of_from hSi hnotini
  have hstampi1 : stampOf (wstep M (runInserts M initState (L.take i))
      (L.getD i (0, 0))).stamped (L.getD i (0, 0)).2
      = some (runInserts M initState (L.take i)).nextID := by
    rw [hstepi.1, stampOf_append_of_none hstampi0]
    simp [stampOf]
  -- the canonical of item i after its step is item i itself
  have hcanoni : canonIn M (wstep M (runInserts M initState (L.take i))
      (L.getD i (0, 0))) (L.getD i (0, 0)).2 = some (L.getD i (0, 0)).2 := by
    have := canonIn_wstep_self M H (runInserts M initState (L.take i)) (L.getD i (0, 0))
    rw [hstepi.2.2.2] at this
    simpa using this
  -- decompose the run over (L.take j) at position i
  have hdecompj : runInserts M initState (L.take j)
      = runInserts M (wstep M (runInserts M initState (L.take i)) (L.getD i (0, 0)))
          ((L.take j).drop (i + 1)) := by
    have h := run_decomp M initState (L.take j) i (by rw [List.length_take]; omega)
    have htt : (L.take j).take i = L.take i := by
      rw [List.take_take]
      congr 1
      omega
    have hgd : (L.take j).getD i (0, 0) = L.getD i (0, 0) := getD_take hij hiL
    rw [htt, hgd] at h
    exact h
  -- the bucket of the shared fingerprint at the cut state j contains item i
  have hcanonj : canonIn M (runInserts M initState (L.take j)) (L.getD i (0, 0)).2
      = some (L.getD i (0, 0)).2 := by
    rw [hdecompj]
    exact canonIn_run_persist M _ _ hcanoni
  rcases hLs : lookupTree (runInserts M initState (L.take j)).tree
      (M.sexpID (L.getD i (0, 0)).2) with - | b
  · rw [canonIn, hLs] at hcanonj
    exact Option.noConfusion hcanonj
  have hLsj : lookupTree (runInserts M initState (L.take j)).tree
      (M.sexpID (L.getD j (0, 0)).2) = some b := by
    rw [← hfid]
    exact hLs
  have hFj : firstMatch M (L.getD j (0, 0)).2 b = none :=
    firstMatch_eq_none_of fun q hq =>
      hfreshSj q (hBj _ b (lookupTree_mem hLsj) q hq)
  -- conclusion (1): collision-miss mechanics at step j
  refine ⟨⟨b, hLsj, hFj, ?_⟩, ⟨?_, ?_, ?_⟩, ?_, ?_⟩
  · generalize hej : L.getD j (0, 0) = ej at hLsj hFj ⊢
    obtain ⟨cj, xj⟩ := ej
    simp [wstep, workerInsert, hLsj, hFj]
  · -- the stamp of item i survives to the end of the run
    have hdecompL : runInserts M initState L
        = runInserts M (wstep M (runInserts M initState (L.take i)) (L.getD i (0, 0)))
            (L.drop (i + 1)) := run_decomp M initState L i hiL
    obtain ⟨t, ht⟩ := run_stamped_extends M
      (wstep M (runInserts M initState (L.take i)) (L.getD i (0, 0))) (L.drop (i + 1))
    rw [hdecompL, ht]
    exact stampOf_append_left hstampi1
  · -- the stamp of item j survives to the end of the run
    have hstepj := wstep_fresh M (runInserts M initState (L.take j)) (L.getD j (0, 0))
      hBj hfreshSj
    have hstampj0 : stampOf (runInserts M initState (L.take j)).stamped
        (L.getD j (0, 0)).2 = none := stampOf_none_of_from hSj hnotinj
    have hstampj1 : stampOf (wstep M (runInserts M initState (L.take j))
        (L.getD j (0, 0))).stamped (L.getD j (0, 0)).2
        = some (runInserts M initState (L.take j)).nextID := by
      rw [hstepj.1, stampOf_append_of_none hstampj0]
      simp [stampOf]
    have hdecompL : runInserts M initState L
        = runInserts M (wstep M (runInserts M initState (L.take j)) (L.getD j (0, 0)))
            (L.drop (j + 1)) := run_decomp M initState L j hjL
    obtain ⟨t, ht⟩ := run_stamped_extends M
      (wstep M (runInserts M initState (L.take j)) (L.getD j (0, 0))) (L.drop (j + 1))
    rw [hdecompL, ht]
    exact stampOf_append_left hstampj1
  · -- the two minted counter values are distinct
    have h1 : (wstep M (runInserts M initState (L.take i)) (L.getD i (0, 0))).nextID
        = (runInserts M initState (L.take i)).nextID + 1 := hstepi.2.1
    have h2 := run_nextID_le M
      (wstep M (runInserts M initState (L.take i)) (L.getD i (0, 0)))
      ((L.take j).drop (i + 1))
    rw [← hdecompj] at h2
    omega
  · -- later items equal to item j resolve to item j
    intro l hjl hlL hcmp
    have hcanonjj : canonIn M (runInserts M initState L) (L.getD j (0, 0)).2
        = some (L.getD j (0, 0)).2 := by
      have hcj0 : canonIn M (runInserts M initState (L.take j)) (L.getD j (0, 0)).2
          = none := by
        rw [canonIn, hLsj]
        show firstMatch M (L.getD j (0, 0)).2 b = none
        exact hFj
      have hcj1 : canonIn M (wstep M (runInserts M initState (L.take j))
          (L.getD j (0, 0))) (L.getD j (0, 0)).2 = some (L.getD j (0, 0)).2 := by
        have := canonIn_wstep_self M H (runInserts M initState (L.take j)) (L.getD j (0, 0))
        rw [hcj0] at this
        simpa using this
      rw [run_decomp M initState L j hjL]
      exact canonIn_run_persist M _ _ hcj1
    have hptl := run_canon_pointwise M H initState L l hlL
    have h0 : (initState.trace.length : Nat) = 0 := rfl
    rw [h0, Nat.zero_add] at hptl
    have hInv := treeInv_run M H initState L (treeInv_init M)
    have := canonIn_unique M H (runInserts M initState L) hInv hptl hcanonjj hcmp
    exact this
  · -- later items equal to item i resolve to item i
    intro l hil hlL hcmp
    have hcanonii : canonIn M (runInserts M initState L) (L.getD i (0, 0)).2
        = some (L.getD i (0, 0)).2 := by
      rw [run_decomp M initState L i hiL]
      exact canonIn_run_persist M _ _ hcanoni
    have hptl := run_canon_pointwise M H initState L l hlL
    have h0 : (initState.trace.length : Nat) = 0 := rfl
    rw [h0, Nat.zero_add] at hptl
    have hInv := treeInv_run M H initState L (treeInv_init M)
    exact canonIn_unique M H (runInserts M initState L) hInv hptl hcanonii hcmp

/-- Witness for the amended C3 at a concrete run: items 10 and 20 share
the (constant) fingerprint, are not deep-equal, and receive the distinct
minted counter values 0 and 1. -/
theorem collision_miss_distinct_stamps_witness :
    stampOf (runInserts M3 initState [(1, 10), (1, 20)]).stamped 10 = some 0 ∧
      stampOf (runInserts M3 initState [(1, 10), (1, 20)]).stamped 20 = some 1 := by
  have H : GoodCmp M3 := by
    refine ⟨fun a => by simp [M3], fun a b => ?_, fun a b c h1 h2 => ?_,
      fun a b h => rfl⟩
    · rw [M3]
      simp only
      rw [decide_eq_decide]
      exact eq_comm
    · simp only [M3, decide_eq_true_eq] at h1 h2 ⊢
      exact h1.trans h2
  have h := collision_miss_distinct_stamps M3 H [(1, 10), (1, 20)] 0 1
    (by decide) (by decide) rfl
    (fun k hk => absurd hk (Nat.not_lt_zero k))
    (by
      intro k hk
      have hk0 : k = 0 := by omega
      subst hk0
      decide)
  exact ⟨h.2.1.1, h.2.1.2.1⟩

end ICache
